import Mathlib

/-!
Verification of the DBGp protocol client and the fix-application tool of the
ahk-mcp repository.

The definitions below are a shallow embedding of the TypeScript sources:

* `DBGpClient` (src/unnamed/part_004): the wire codec (`handleData`), the
  transaction router (`sendCommand` and the per-command message handlers),
  the property parser (`parseProperties`), and the error-capture queue
  (`queueError`, `waitForError`, `getQueuedErrors`, `clearErrorQueue`).
* `AhkDebugDBGpTool.applyFix` (src/unnamed/part_008, lines 380-414).

JavaScript strings are modelled as Lean `String`/`List Char`; socket bytes
are modelled as `List Nat`.  The source's `handleData` runs
`this.buffer += data.toString()` on each chunk — a per-chunk lossy UTF-8
decode (`utf8DecodeLossy` here) — before the NUL-splitting loop; the model
splits this into `handleDataBytes` (the `socket.on('data')` path on bytes)
and `handleData` (buffer append plus decode loop on the decoded characters).
Asynchronous behaviour (promises, event listeners, timers) is modelled by
explicit state passing: each promise is a call id, resolutions are recorded
in a log with first-write-wins semantics, and timer callbacks are explicit
transition functions that a trace may fire.
-/

namespace AhkMcp

/-! ## JavaScript string primitives used by the source -/

/-- Model of JavaScript `hay.includes(needle)`: `needle` occurs as a
contiguous substring of `hay`. -/
def listIncludes {α : Type} [DecidableEq α] : List α → List α → Bool
  | [], needle => needle.isEmpty
  | a :: as, needle => needle.isPrefixOf (a :: as) || listIncludes as needle

/-- JavaScript `String.prototype.includes` on Lean strings. -/
def jsIncludes (hay needle : String) : Bool :=
  listIncludes hay.data needle.data

/-- Whitespace as matched by JavaScript `\s` and removed by
`String.prototype.trim`: the ASCII whitespace characters plus NBSP and the
BOM (the characters relevant to source files). -/
def isJsSpace (c : Char) : Bool :=
  c = ' ' || c = '\t' || c = '\n' || c = '\r' ||
    c = Char.ofNat 0x0b || c = Char.ofNat 0x0c ||
    c = Char.ofNat 0xa0 || c = Char.ofNat 0xfeff

/-- JavaScript `String.prototype.trim`: strip leading and trailing
whitespace. -/
def jsTrim (s : String) : String :=
  ⟨((s.data.dropWhile isJsSpace).reverse.dropWhile isJsSpace).reverse⟩

/-- Leading-whitespace prefix of a line, as captured by the source's
`line.match(/^(\s*)/)?.[1]`. -/
def leadingSpace (s : String) : String :=
  ⟨s.data.takeWhile isJsSpace⟩

/-- Split on the regex `/\r?\n/` (used by both `getSourceContext` and
`applyFix` when reading a file): each LF ends a line, an immediately
preceding CR is consumed with it, and a CR not followed by LF stays in the
line. -/
def splitLinesChars : List Char → List Char → List (List Char)
  | [], acc => [acc.reverse]
  | '\r' :: '\n' :: rest, acc => acc.reverse :: splitLinesChars rest []
  | '\n' :: rest, acc => acc.reverse :: splitLinesChars rest []
  | c :: rest, acc => splitLinesChars rest (c :: acc)

/-- JavaScript `content.split(/\r?\n/)` on a Lean string. -/
def splitLines (content : String) : List String :=
  (splitLinesChars content.data []).map List.asString

/-! ## Base64, as implemented by Node's `Buffer`

`Buffer.from(s)` encodes a string to its UTF-8 bytes;
`Buffer.from(s, 'base64')` decodes leniently and never throws: characters
outside the base64 alphabets are skipped, decoding stops at the first
padding `=`, and a trailing group shorter than four digits contributes its
complete bytes only.  `buf.toString('base64')` / `buf.toString('utf-8')`
are the inverse directions.  These Node collaborators are modelled here;
the model is exact on the valid inputs the theorems exercise and, crucially,
is total: no input makes the decoder fail. -/

/-- UTF-8 encoding of one scalar value, as a list of byte values. -/
def utf8EncodeCharNat (c : Char) : List Nat :=
  let n := c.toNat
  if n < 0x80 then [n]
  else if n < 0x800 then [0xc0 + n / 64, 0x80 + n % 64]
  else if n < 0x10000 then [0xe0 + n / 4096, 0x80 + n / 64 % 64, 0x80 + n % 64]
  else [0xf0 + n / 262144, 0x80 + n / 4096 % 64, 0x80 + n / 64 % 64, 0x80 + n % 64]

/-- UTF-8 bytes of a character sequence. -/
def utf8EncodeChars (s : List Char) : List Nat :=
  (s.map utf8EncodeCharNat).flatten

/-- Model of `Buffer.from(s)`: the UTF-8 bytes of the string. -/
def utf8Bytes (s : String) : List Nat :=
  utf8EncodeChars s.data

/-- The standard base64 alphabet. -/
def base64Alphabet : List Char :=
  "ABCDEFGHIJKLMNOPQRSTUVWXYZabcdefghijklmnopqrstuvwxyz0123456789+/".data

/-- Digit value of a base64 character; accepts the URL-safe variants of
the last two digits, as Node's decoder does. -/
def base64Value (c : Char) : Option Nat :=
  if c = '-' then some 62
  else if c = '_' then some 63
  else
    let i := base64Alphabet.indexOf c
    if i < base64Alphabet.length then some i else none

/-- Encode a byte list in base64 with padding. -/
def base64EncodeBytes : List Nat → List Char
  | [] => []
  | [b1] =>
    [base64Alphabet.getD (b1 / 4) '?', base64Alphabet.getD (b1 % 4 * 16) '?', '=', '=']
  | [b1, b2] =>
    [base64Alphabet.getD (b1 / 4) '?', base64Alphabet.getD (b1 % 4 * 16 + b2 / 16) '?',
     base64Alphabet.getD (b2 % 16 * 4) '?', '=']
  | b1 :: b2 :: b3 :: rest =>
    base64Alphabet.getD (b1 / 4) '?' ::
      base64Alphabet.getD (b1 % 4 * 16 + b2 / 16) '?' ::
      base64Alphabet.getD (b2 % 16 * 4 + b3 / 64) '?' ::
      base64Alphabet.getD (b3 % 64) '?' :: base64EncodeBytes rest

/-- Model of `Buffer.from(s).toString('base64')`. -/
def bufferBase64Encode (s : String) : String :=
  ⟨base64EncodeBytes (utf8Bytes s)⟩

/-- Decode base64 digit groups into bytes; an incomplete trailing group
yields only the bytes it fully determines. -/
def base64DecodeGroups : List Nat → List Nat
  | a :: b :: c :: d :: rest =>
    (a * 4 + b / 16) :: (b % 16 * 16 + c / 4) :: (c % 4 * 64 + d) ::
      base64DecodeGroups rest
  | [a, b, c] => [a * 4 + b / 16, b % 16 * 16 + c / 4]
  | [a, b] => [a * 4 + b / 16]
  | _ => []

/-- Model of Node's lenient base64 decode to bytes: stop at the first `=`,
skip every character that is not a base64 digit, decode the rest.  It is
total — `Buffer.from(s, 'base64')` never throws. -/
def nodeBase64DecodeBytes (s : List Char) : List Nat :=
  base64DecodeGroups ((s.takeWhile (· ≠ '=')).filterMap base64Value)

/-- One step of lossy UTF-8 decoding: from a lead byte and the following
bytes, produce the decoded character (the replacement character U+FFFD for
an invalid lead or continuation) and the bytes remaining after it.  An
incomplete multibyte sequence at the end of the input consumes the rest. -/
def utf8DecodeStep (b : Nat) (rest : List Nat) : Char × List Nat :=
  if b < 0x80 then (Char.ofNat b, rest)
  else if 0xc2 ≤ b ∧ b ≤ 0xdf then
    match rest with
    | b2 :: r =>
      if 0x80 ≤ b2 ∧ b2 < 0xc0 then
        (Char.ofNat ((b - 0xc0) * 64 + (b2 - 0x80)), r)
      else (Char.ofNat 0xfffd, b2 :: r)
    | [] => (Char.ofNat 0xfffd, [])
  else if 0xe0 ≤ b ∧ b ≤ 0xef then
    match rest with
    | b2 :: b3 :: r =>
      if 0x80 ≤ b2 ∧ b2 < 0xc0 ∧ 0x80 ≤ b3 ∧ b3 < 0xc0 then
        (Char.ofNat ((b - 0xe0) * 4096 + (b2 - 0x80) * 64 + (b3 - 0x80)), r)
      else (Char.ofNat 0xfffd, b2 :: b3 :: r)
    | _ => (Char.ofNat 0xfffd, [])
  else if 0xf0 ≤ b ∧ b ≤ 0xf4 then
    match rest with
    | b2 :: b3 :: b4 :: r =>
      if 0x80 ≤ b2 ∧ b2 < 0xc0 ∧ 0x80 ≤ b3 ∧ b3 < 0xc0 ∧ 0x80 ≤ b4 ∧ b4 < 0xc0 then
        (Char.ofNat
            ((b - 0xf0) * 262144 + (b2 - 0x80) * 4096 + (b3 - 0x80) * 64 + (b4 - 0x80)),
          r)
      else (Char.ofNat 0xfffd, b2 :: b3 :: b4 :: r)
    | _ => (Char.ofNat 0xfffd, [])
  else (Char.ofNat 0xfffd, rest)

/-- One decoded character per unit of fuel; each step consumes at least
the lead byte, so `bs.length` units of fuel decode the whole input. -/
def utf8DecodeLossyFuel : Nat → List Nat → List Char
  | 0, _ => []
  | _ + 1, [] => []
  | fuel + 1, b :: rest =>
    (utf8DecodeStep b rest).1 :: utf8DecodeLossyFuel fuel (utf8DecodeStep b rest).2

/-- Lossy UTF-8 decoding of a byte list, as `buf.toString('utf-8')`:
valid sequences decode to their scalar values, invalid bytes become the
replacement character.  Exact on valid UTF-8. -/
def utf8DecodeLossy (bs : List Nat) : List Char :=
  utf8DecodeLossyFuel bs.length bs

/-- Model of `Buffer.from(s, 'base64').toString('utf-8')` — Node's
never-throwing base64-to-string decode. -/
def nodeBase64Decode (s : String) : String :=
  ⟨utf8DecodeLossy (nodeBase64DecodeBytes s.data)⟩

/-! ## Wire codec — `DBGpClient.handleData` (part_004, lines 115-141)

Incoming data is appended to `this.buffer`; then the loop repeatedly takes
everything before the first NUL byte as one message and classifies it:
a purely numeric message is a length header and is skipped, a message
containing `<init ` is emitted as an `init` event, anything else as a
`message` event.  If the buffer holds no NUL the loop stops. -/

/-- The NUL frame terminator, `'\0'` in the source. -/
def nullChar : Char := Char.ofNat 0

/-- Events emitted by `handleData` (length headers are discarded). -/
inductive WireEvent
  | initEvent (msg : List Char)
  | messageEvent (msg : List Char)
deriving DecidableEq, Repr

/-- Test for the source's `message.match(/^\d+$/)`: nonempty and all
decimal digits. -/
def isDigitStr (m : List Char) : Bool :=
  !m.isEmpty && m.all (·.isDigit)

/-- Classification of one complete frame, as in the body of the decode
loop: a length header yields no event. -/
def classify (m : List Char) : Option WireEvent :=
  if isDigitStr m then none
  else if listIncludes m "<init ".data then some (.initEvent m)
  else some (.messageEvent m)

/-- One round of the decode loop of `handleData` per unit of fuel: split
the buffer at the first NUL byte, classify the complete message, continue
on the remainder.  Each round consumes at least one character, so
`buf.length` units of fuel always reach the loop's own exit condition
(no NUL byte left); the fuel only makes the recursion structural. -/
def drainBufferFuel : Nat → List Char → List WireEvent × List Char
  | 0, buf => ([], buf)
  | fuel + 1, buf =>
    if nullChar ∈ buf then
      let msg := buf.takeWhile (· ≠ nullChar)
      let rest := (buf.dropWhile (· ≠ nullChar)).tail
      let res := drainBufferFuel fuel rest
      ((classify msg).toList ++ res.1, res.2)
    else ([], buf)

/-- The decode loop of `handleData`: split the buffer at NUL bytes,
classify each complete message, and return the emitted events together
with the remaining (NUL-free) buffer. -/
def drainBuffer (buf : List Char) : List WireEvent × List Char :=
  drainBufferFuel buf.length buf

/-- Character-level part of `DBGpClient.handleData`: append the already
decoded chunk to the buffer and run the decode loop; returns the new
buffer and the emitted events. -/
def handleData (buffer data : List Char) : List Char × List WireEvent :=
  let res := drainBuffer (buffer ++ data)
  (res.2, res.1)

/-- `DBGpClient.handleData` on a raw socket chunk: the source first runs
`data.toString()` on the chunk — a lossy per-chunk UTF-8 decode, which
turns the fragments of a multibyte character split across two chunks into
replacement characters — and appends the result to the buffer. -/
def handleDataBytes (buffer : List Char) (data : List Nat) :
    List Char × List WireEvent :=
  handleData buffer (utf8DecodeLossy data)

/-- Feed a sequence of decoded chunks to `handleData` one at a time,
accumulating the emitted events. -/
def handleDataAll (buffer : List Char) : List (List Char) → List Char × List WireEvent
  | [] => (buffer, [])
  | c :: cs =>
    let step := handleData buffer c
    let rest := handleDataAll step.1 cs
    (rest.1, step.2 ++ rest.2)

/-- Feed a sequence of raw byte chunks — a partition of the socket byte
stream — to `handleDataBytes` one at a time, accumulating the emitted
events. -/
def handleDataBytesAll (buffer : List Char) :
    List (List Nat) → List Char × List WireEvent
  | [] => (buffer, [])
  | c :: cs =>
    let step := handleDataBytes buffer c
    let rest := handleDataBytesAll step.1 cs
    (rest.1, step.2 ++ rest.2)

/-! ## Transaction router — `DBGpClient.sendCommand` (part_004, lines 146-171)

`sendCommand` first checks the connection, then allocates the next
transaction id, writes `"<command> -i <tid>\0"` to the socket, and registers
a `message` listener that resolves when a message containing
`transaction_id="<tid>"` arrives, guarded by a 10-second timeout that
deregisters the listener and rejects with `Command timeout`.

The model keeps the registered listeners as a list of pending entries in
registration order.  Delivering a `message` event runs every listener (as
`EventEmitter.emit` does); each matching listener resolves with the message
and removes itself.  The timer of a pending command is an explicit
transition (`fireCommandTimeout`) that a trace fires when no matching
message arrived first.  Resolutions carry the raw message; the source
applies `parseResponse`, a pure function of it. -/

/-- The error thrown by `sendCommand` when no debuggee is connected. -/
def notConnectedError : String := "Not connected to AutoHotkey debugger"

/-- The fixed per-command timeout (`10000` in the source). -/
def commandTimeoutMs : Nat := 10000

/-- A registered one-shot `message` listener of a pending command. -/
structure PendingHandler where
  tid : Nat
  timeoutMs : Nat
deriving DecidableEq, Repr

/-- The `DBGpClient` fields that the transaction router touches. -/
structure ClientState where
  transactionId : Nat
  connected : Bool
  socketPresent : Bool
  pending : List PendingHandler
deriving DecidableEq, Repr

/-- The substring a handler for transaction id `tid` looks for:
`transaction_id="<tid>"`. -/
def needle (tid : Nat) : String :=
  "transaction_id=\"" ++ toString tid ++ "\""

/-- Synchronous part of `DBGpClient.sendCommand`: the connection check, the
transaction-id allocation, the listener registration and the socket write.
Returns the new state and either the not-connected error or the allocated
transaction id with the wire string written to the socket. -/
def sendCommand (s : ClientState) (command : String) :
    ClientState × Except String (Nat × String) :=
  if !s.socketPresent || !s.connected then
    (s, .error notConnectedError)
  else
    let tid := s.transactionId
    let fullCommand := command ++ " -i " ++ toString tid ++ "\x00"
    ({ s with
        transactionId := tid + 1,
        pending := s.pending ++ [⟨tid, commandTimeoutMs⟩] },
     .ok (tid, fullCommand))

/-- Delivery of one `message` event to the registered listeners: every
listener whose needle occurs in the message resolves with the message and
deregisters itself; the others stay. -/
def deliverMessage (s : ClientState) (msg : String) :
    ClientState × List (Nat × String) :=
  ({ s with pending := s.pending.filter (fun p => !jsIncludes msg (needle p.tid)) },
   (s.pending.filter (fun p => jsIncludes msg (needle p.tid))).map (fun p => (p.tid, msg)))

/-- Deliver a sequence of `message` events, accumulating the resolutions in
delivery order. -/
def deliverAll (s : ClientState) : List String → ClientState × List (Nat × String)
  | [] => (s, [])
  | m :: ms =>
    let step := deliverMessage s m
    let rest := deliverAll step.1 ms
    (rest.1, step.2 ++ rest.2)

/-- The `setTimeout` callback of a pending command: deregister its
listener (`this.off('message', handler)`) and reject with
`Command timeout`. -/
def fireCommandTimeout (s : ClientState) (tid : Nat) : ClientState × String :=
  ({ s with pending := s.pending.eraseP (fun p => p.tid == tid) }, "Command timeout")

/-- Issue a sequence of commands through `sendCommand` on the shared
client state — the synchronous parts of N concurrent `sendCommand` calls
run one after another on the single-threaded event loop — collecting the
allocated transaction ids. -/
def issueCommands (s : ClientState) : List String → ClientState × List Nat
  | [] => (s, [])
  | c :: cs =>
    let step := sendCommand s c
    let rest := issueCommands step.1 cs
    (rest.1,
      (match step.2 with
        | .ok r => [r.1]
        | .error _ => []) ++ rest.2)

/-! ## Command API wrappers (part_004, lines 261-355)

Each public operation builds its DBGp command string and goes through
`sendCommand`; the not-connected check therefore runs before anything
else. -/

/-- Backslash-to-slash normalization, `file.replace(/\\/g, '/')`. -/
def normalizeSlashes (file : String) : String :=
  ⟨file.data.map (fun c => if c = '\\' then '/' else c)⟩

/-- `DBGpClient.run`. -/
def runCmd (s : ClientState) : ClientState × Except String (Nat × String) :=
  sendCommand s "run"

/-- `DBGpClient.stepInto`. -/
def stepIntoCmd (s : ClientState) : ClientState × Except String (Nat × String) :=
  sendCommand s "step_into"

/-- `DBGpClient.stepOver`. -/
def stepOverCmd (s : ClientState) : ClientState × Except String (Nat × String) :=
  sendCommand s "step_over"

/-- `DBGpClient.stepOut`. -/
def stepOutCmd (s : ClientState) : ClientState × Except String (Nat × String) :=
  sendCommand s "step_out"

/-- `DBGpClient.stop`. -/
def stopCmd (s : ClientState) : ClientState × Except String (Nat × String) :=
  sendCommand s "stop"

/-- `DBGpClient.getStatus`. -/
def getStatusCmd (s : ClientState) : ClientState × Except String (Nat × String) :=
  sendCommand s "status"

/-- `DBGpClient.setBreakpoint`: a line breakpoint at a `file:///` URI,
with an optional base64-encoded condition appended after `--`. -/
def setBreakpointCmd (s : ClientState) (file : String) (line : Nat)
    (condition : Option String) : ClientState × Except String (Nat × String) :=
  let base := "breakpoint_set -t line -f file:///" ++ normalizeSlashes file ++
    " -n " ++ toString line
  let cmd := match condition with
    | some c => base ++ " -- " ++ bufferBase64Encode c
    | none => base
  sendCommand s cmd

/-- `DBGpClient.removeBreakpoint`. -/
def removeBreakpointCmd (s : ClientState) (id : String) :
    ClientState × Except String (Nat × String) :=
  sendCommand s ("breakpoint_remove -d " ++ id)

/-- `DBGpClient.listBreakpoints` (command phase). -/
def listBreakpointsCmd (s : ClientState) : ClientState × Except String (Nat × String) :=
  sendCommand s "breakpoint_list"

/-- `DBGpClient.getVariables` (command phase), context 0 = local,
1 = global. -/
def getVariablesCmd (s : ClientState) (contextId : Nat) :
    ClientState × Except String (Nat × String) :=
  sendCommand s ("context_get -c " ++ toString contextId)

/-- `DBGpClient.evaluateExpression` (command phase): the expression is
base64-encoded before sending. -/
def evaluateExpressionCmd (s : ClientState) (expression : String) :
    ClientState × Except String (Nat × String) :=
  sendCommand s ("eval -- " ++ bufferBase64Encode expression)

/-- `DBGpClient.getStackTrace` (command phase). -/
def getStackTraceCmd (s : ClientState) : ClientState × Except String (Nat × String) :=
  sendCommand s "stack_get"

/-! ## Property parser — `DBGpClient.parseProperties` (part_004, lines 202-231)

The source scans the XML with the global regex
`/<property([^>]*)>([^<]*)<\/property>/g`, copies the attributes of each
match into the variable record, and then, when the text content is
nonempty, sets `variable.value` to `Buffer.from(text, 'base64')
.toString('utf-8')`; the `catch` fallback to the raw text is unreachable
because that decode never throws.

The model keeps the raw attribute region of each match and represents the
`value` field as `none` when the text content is empty (the source would
then leave whatever a `value` attribute provided). -/

/-- Attempt the property regex at the current position: the literal
`<property`, then the attribute region (characters other than `>`), the
closing `>`, the text content (characters other than `<`), and the literal
`</property>`.  Returns the attribute region, the text content and the
remainder after the match. -/
def matchPropertyAt (l : List Char) : Option (List Char × List Char × List Char) :=
  if "<property".data.isPrefixOf l then
    match (l.drop 9).dropWhile (· ≠ '>') with
    | '>' :: rest1 =>
      if "</property>".data.isPrefixOf (rest1.dropWhile (· ≠ '<')) then
        some ((l.drop 9).takeWhile (· ≠ '>'), rest1.takeWhile (· ≠ '<'),
          (rest1.dropWhile (· ≠ '<')).drop 11)
      else none
    | _ => none
  else none

/-- One position of the global regex scan per unit of fuel: try a match
at the current position, resume after it on success, advance one character
on failure.  By `matchPropertyAt_length` every round consumes at least one
character, so `l.length` units of fuel complete the scan. -/
def scanPropertiesFuel : Nat → List Char → List (List Char × List Char)
  | 0, _ => []
  | _ + 1, [] => []
  | fuel + 1, c :: rest =>
    match matchPropertyAt (c :: rest) with
    | some (attrs, text, rem) => (attrs, text) :: scanPropertiesFuel fuel rem
    | none => scanPropertiesFuel fuel rest

/-- The global scan of the property regex: try a match at every position,
left to right, resuming after each successful match. -/
def scanProperties (l : List Char) : List (List Char × List Char) :=
  scanPropertiesFuel l.length l

/-- A parsed property element: the raw attribute region, the raw text
content, and the final `value` field, which for nonempty text is the
never-failing Node base64 decode of the text. -/
structure ParsedProperty where
  attrs : String
  text : String
  value : Option String
deriving DecidableEq, Repr

/-- `DBGpClient.parseProperties`: every regex match becomes a record; for
nonempty text content the `value` field is `Buffer.from(text, 'base64')
.toString('utf-8')` (the `catch` branch never runs). -/
def parseProperties (xml : String) : List ParsedProperty :=
  (scanProperties xml.data).map (fun p =>
    { attrs := ⟨p.1⟩
      text := ⟨p.2⟩
      value := if p.2.isEmpty then none else some (nodeBase64Decode ⟨p.2⟩) })

/-! ## Error capture subsystem (part_004, lines 385-436)

`queueError` appends to `this.errorQueue`, evicts the oldest entry when
the queue exceeds `errorQueueMaxSize` (100), and, if `this.errorWaiters`
is nonempty, shifts the first waiter off the list and invokes it with the
error — without removing the error from the queue.

`waitForError` returns the queue head immediately when the queue is
nonempty; otherwise it pushes a wrapper closure onto `errorWaiters` and
arms a timer whose callback runs `errorWaiters.indexOf(resolve)` — the
`resolve` function itself, which is never what was pushed (the wrapper
was), so the lookup always misses and the stale wrapper stays registered —
and then resolves the promise with `null`.

Function identity is modelled by tagged references: call `k` has a
`resolveFn k` (its promise resolver) and a `wrapperFn k` (the closure
pushed onto the waiter list), distinct values.  Each call's promise is a
row in a first-write-wins resolution log; errors are abstracted to their
numeric markers. -/

/-- The maximum error-queue size (`errorQueueMaxSize` in the source). -/
def errorQueueMaxSize : Nat := 100

/-- A JavaScript function reference, distinguished by identity: the
promise resolver of `waitForError` call `k`, or the wrapper closure that
call pushed onto `errorWaiters`. -/
inductive FnRef
  | resolveFn (k : Nat)
  | wrapperFn (k : Nat)
deriving DecidableEq, Repr

/-- The `DBGpClient` fields touched by the error subsystem, plus the
resolution log of the `waitForError` promises. -/
structure ErrState where
  errorQueue : List Nat
  errorWaiters : List FnRef
  resolutions : List (Nat × Option Nat)
deriving DecidableEq, Repr

/-- Resolve promise `k` with `v` unless it is already settled (a promise
resolves at most once). -/
def resolveOnce (st : ErrState) (k : Nat) (v : Option Nat) : ErrState :=
  if st.resolutions.any (fun r => r.1 == k) then st
  else { st with resolutions := st.resolutions ++ [(k, v)] }

/-- The settled value of promise `k`: `none` while pending, `some v`
once resolved with `v`. -/
def promiseValue (st : ErrState) (k : Nat) : Option (Option Nat) :=
  (st.resolutions.find? (fun r => r.1 == k)).map (·.2)

/-- Invoking a stored waiter function with an error: the wrapper clears
its timer and resolves its call's promise with the error.  (A `resolveFn`
is never stored, but invoking it would resolve the same promise.) -/
def invokeWaiter (st : ErrState) (f : FnRef) (e : Nat) : ErrState :=
  match f with
  | .wrapperFn k => resolveOnce st k (some e)
  | .resolveFn k => resolveOnce st k (some e)

/-- `DBGpClient.queueError`: push the error, evict the oldest entry when
the queue exceeds its bound, then shift the first waiter (if any) off the
list and invoke it with the error. -/
def queueError (st : ErrState) (e : Nat) : ErrState :=
  let q := st.errorQueue ++ [e]
  let q := if q.length > errorQueueMaxSize then q.tail else q
  match st.errorWaiters with
  | [] => { st with errorQueue := q }
  | w :: ws => invokeWaiter { st with errorQueue := q, errorWaiters := ws } w e

/-- `DBGpClient.waitForError`, synchronous part of call `k` (`k` a fresh
promise id): with a nonempty queue the head is shifted off and the promise
resolves with it at once; otherwise the wrapper closure of call `k` is
pushed onto `errorWaiters` and the call stays pending. -/
def waitForError (st : ErrState) (k : Nat) : ErrState :=
  match st.errorQueue with
  | e :: rest => resolveOnce { st with errorQueue := rest } k (some e)
  | [] => { st with errorWaiters := st.errorWaiters ++ [.wrapperFn k] }

/-- The timer callback of `waitForError` call `k`: look up `resolve` —
not the stored wrapper — in `errorWaiters` (`indexOf` + `splice`, a no-op
when absent), then resolve the promise with `null`. -/
def waiterTimeout (st : ErrState) (k : Nat) : ErrState :=
  let st := { st with errorWaiters := st.errorWaiters.erase (.resolveFn k) }
  resolveOnce st k none

/-- `DBGpClient.getQueuedErrors`: a non-destructive snapshot. -/
def getQueuedErrors (st : ErrState) : List Nat :=
  st.errorQueue

/-- `DBGpClient.clearErrorQueue`. -/
def clearErrorQueue (st : ErrState) : ErrState :=
  { st with errorQueue := [] }

/-! ## Fix application — `AhkDebugDBGpTool.applyFix` (part_008, lines 380-414)

The file content is split on `/\r?\n/`; an out-of-range line or a line
whose trimmed content differs from the trimmed expected original yields a
descriptive error without writing; otherwise the target line becomes its
own leading whitespace followed by the trimmed replacement, and the lines
are joined with `\n` and written back. -/

/-- Result of `applyFix`: the rewritten file content with the success
message, or the error message (no write). -/
inductive FixResult
  | ok (newContent : String) (message : String)
  | err (message : String)
deriving DecidableEq, Repr

/-- `AhkDebugDBGpTool.applyFix` on the file's current content. -/
def applyFix (file content : String) (line : Nat) (original replacement : String) :
    FixResult :=
  let lines := splitLines content
  if line < 1 || line > lines.length then
    .err ("Line " ++ toString line ++ " is out of range (file has " ++
      toString lines.length ++ " lines)")
  else
    let actualLine := lines.getD (line - 1) ""
    if jsTrim actualLine ≠ jsTrim original then
      .err ("Line mismatch at " ++ toString line ++ ".\nExpected: \"" ++
        jsTrim original ++ "\"\nFound: \"" ++ jsTrim actualLine ++ "\"")
    else
      let indent := leadingSpace actualLine
      let newLines := lines.set (line - 1) (indent ++ jsTrim replacement)
      .ok (String.intercalate "\n" newLines)
        ("Fix applied at " ++ file ++ ":" ++ toString line ++ "\n- Old: " ++
          jsTrim original ++ "\n+ New: " ++ jsTrim replacement)

/-! ## Supporting lemmas -/

/-- A buffer containing a NUL byte loses at least the message and its
terminator in one round: the remainder is strictly shorter. -/
theorem drainRest_length_lt {buf : List Char} (h : nullChar ∈ buf) :
    ((buf.dropWhile (· ≠ nullChar)).tail).length < buf.length := by
  have h1 : buf.dropWhile (· ≠ nullChar) ≠ [] := by
    simp only [ne_eq, List.dropWhile_eq_nil_iff]
    push_neg
    exact ⟨nullChar, h, by simp⟩
  have h2 : (buf.dropWhile (· ≠ nullChar)).length ≤ buf.length :=
    (List.dropWhile_sublist _).length_le
  have h3 := List.length_tail (buf.dropWhile (· ≠ nullChar))
  have h4 : 0 < (buf.dropWhile (· ≠ nullChar)).length := List.length_pos.mpr h1
  omega

/-- Any fuel at least the buffer length computes the loop's fixpoint. -/
theorem drainBufferFuel_stable (fuel : Nat) :
    ∀ buf : List Char, buf.length ≤ fuel →
      drainBufferFuel fuel buf = drainBuffer buf := by
  induction fuel using Nat.strong_induction_on with
  | _ fuel ih =>
    intro buf hlen
    match fuel with
    | 0 =>
      have : buf = [] := List.length_eq_zero.mp (Nat.le_zero.mp hlen)
      subst this
      rfl
    | fuel + 1 =>
      by_cases hmem : nullChar ∈ buf
      · have hrest := drainRest_length_lt hmem
        have hbuf : ∃ m, buf.length = m + 1 := by
          cases hb : buf.length with
          | zero =>
            exact absurd hmem (by simp [List.length_eq_zero.mp hb])
          | succ m => exact ⟨m, rfl⟩
        obtain ⟨m, hm⟩ := hbuf
        unfold drainBuffer
        rw [hm]
        simp only [drainBufferFuel, if_pos hmem]
        rw [ih fuel (by omega) _ (by omega), ih m (by omega) _ (by omega)]
      · unfold drainBuffer
        cases hb : buf.length with
        | zero => simp [drainBufferFuel, hmem]
        | succ m => simp [drainBufferFuel, hmem]

/-- The loop equation of `drainBuffer`, as written in the source. -/
theorem drainBuffer_eq (buf : List Char) :
    drainBuffer buf =
      if nullChar ∈ buf then
        ((classify (buf.takeWhile (· ≠ nullChar))).toList ++
            (drainBuffer ((buf.dropWhile (· ≠ nullChar)).tail)).1,
          (drainBuffer ((buf.dropWhile (· ≠ nullChar)).tail)).2)
      else ([], buf) := by
  by_cases hmem : nullChar ∈ buf
  · have hrest := drainRest_length_lt hmem
    have hbuf : ∃ m, buf.length = m + 1 := by
      cases hb : buf.length with
      | zero => exact absurd hmem (by simp [List.length_eq_zero.mp hb])
      | succ m => exact ⟨m, rfl⟩
    obtain ⟨m, hm⟩ := hbuf
    conv_lhs => rw [drainBuffer, hm]
    simp only [drainBufferFuel, if_pos hmem, if_pos hmem]
    rw [drainBufferFuel_stable m _ (by omega)]
  · conv_lhs => rw [drainBuffer]
    cases hb : buf.length with
    | zero => simp [drainBufferFuel, hmem]
    | succ m => simp [drainBufferFuel, hmem]

/-- The remainder of a successful property match is strictly shorter than
the input. -/
theorem matchPropertyAt_length {l a t r : List Char}
    (h : matchPropertyAt l = some (a, t, r)) : r.length < l.length := by
  unfold matchPropertyAt at h
  split at h
  case isFalse => exact absurd h (by simp)
  case isTrue hpre =>
    revert h
    split
    case h_2 => exact fun h => absurd h (by simp)
    case h_1 rest1 heq =>
      intro h
      split at h
      case isFalse => exact absurd h (by simp)
      case isTrue =>
        simp only [Option.some.injEq, Prod.mk.injEq] at h
        obtain ⟨rfl, rfl, rfl⟩ := h
        have h9 : 9 ≤ l.length := by
          have hp := (List.isPrefixOf_iff_prefix.mp hpre).length_le
          have h9' : ("<property".data).length = 9 := rfl
          omega
        have hd : (l.drop 9).length = l.length - 9 := List.length_drop ..
        have hsub : ((l.drop 9).dropWhile (· ≠ '>')).length ≤ (l.drop 9).length :=
          (List.dropWhile_sublist _).length_le
        rw [heq] at hsub
        have hsub2 : (rest1.dropWhile (· ≠ '<')).length ≤ rest1.length :=
          (List.dropWhile_sublist _).length_le
        have hdrop : ((rest1.dropWhile (· ≠ '<')).drop 11).length ≤
            (rest1.dropWhile (· ≠ '<')).length := by
          rw [List.length_drop]
          omega
        simp only [List.length_cons] at hsub
        omega


/-- `sendCommand` performs nothing when the connection check fails. -/
theorem sendCommand_not_connected {s : ClientState} (cmd : String)
    (h : s.socketPresent = false ∨ s.connected = false) :
    sendCommand s cmd = (s, .error notConnectedError) := by
  rcases h with h | h <;> simp [sendCommand, h]

/-- The queue effect of `queueError` is independent of the waiter list:
push, then evict the oldest entry when over the bound. -/
theorem queueError_errorQueue (st : ErrState) (e : Nat) :
    (queueError st e).errorQueue =
      if (st.errorQueue ++ [e]).length > errorQueueMaxSize then
        (st.errorQueue ++ [e]).tail
      else st.errorQueue ++ [e] := by
  rcases hw : st.errorWaiters with _ | ⟨w, ws⟩
  · simp [queueError, hw]
  · cases w <;> simp [queueError, hw, invokeWaiter, resolveOnce] <;> split <;> rfl

/-- Folding `queueError` over a marker list keeps, of the initial queue
followed by the markers, exactly the last `errorQueueMaxSize` entries. -/
theorem foldl_queueError_errorQueue (ms : List Nat) :
    ∀ st : ErrState, st.errorQueue.length ≤ errorQueueMaxSize →
      (ms.foldl queueError st).errorQueue =
        (st.errorQueue ++ ms).drop ((st.errorQueue ++ ms).length - errorQueueMaxSize) := by
  induction ms with
  | nil =>
    intro st h
    simp only [List.foldl_nil, List.append_nil]
    rw [Nat.sub_eq_zero_of_le h, List.drop_zero]
  | cons e ms ih =>
    intro st h
    rw [List.foldl_cons]
    rw [ih (queueError st e) (by rw [queueError_errorQueue]; split <;> simp_all)]
    rw [queueError_errorQueue]
    split
    case isTrue hgt =>
      rcases hq : st.errorQueue with _ | ⟨q0, qrest⟩
      · rw [hq] at hgt
        simp [errorQueueMaxSize] at hgt
      · rw [hq] at hgt h
        have htail : (((q0 :: qrest) ++ [e]).tail ++ ms) = (qrest ++ [e]) ++ ms := by
          simp
        rw [htail]
        have hfull : ((q0 :: qrest) ++ e :: ms) = q0 :: ((qrest ++ [e]) ++ ms) := by
          simp
        rw [hfull]
        have harith : (q0 :: ((qrest ++ [e]) ++ ms)).length - errorQueueMaxSize
            = (((qrest ++ [e]) ++ ms).length - errorQueueMaxSize) + 1 := by
          simp only [List.length_cons, List.length_append, List.length_singleton,
            errorQueueMaxSize] at *
          omega
        rw [harith, List.drop_succ_cons]
    case isFalse hle =>
      rw [List.append_assoc]
      rfl

/-- Taking up to the first NUL is unaffected by data appended after a
buffer that already contains a NUL. -/
theorem takeWhile_append_of_mem_null {a : List Char} (b : List Char) (h : nullChar ∈ a) :
    (a ++ b).takeWhile (· ≠ nullChar) = a.takeWhile (· ≠ nullChar) := by
  induction a with
  | nil => simp at h
  | cons x a' ih =>
    by_cases hx : x = nullChar
    · subst hx
      simp [List.takeWhile_cons]
    · have h' : nullChar ∈ a' := by
        rcases List.mem_cons.mp h with h | h
        · exact absurd h.symm hx
        · exact h
      have hrec := ih h'
      simp only [ne_eq, decide_not] at hrec
      simp [List.takeWhile_cons, hx, hrec]

/-- Dropping up to the first NUL distributes over data appended after a
buffer that already contains a NUL. -/
theorem dropWhile_append_of_mem_null {a : List Char} (b : List Char) (h : nullChar ∈ a) :
    (a ++ b).dropWhile (· ≠ nullChar) = a.dropWhile (· ≠ nullChar) ++ b := by
  induction a with
  | nil => simp at h
  | cons x a' ih =>
    by_cases hx : x = nullChar
    · subst hx
      simp [List.dropWhile_cons]
    · have h' : nullChar ∈ a' := by
        rcases List.mem_cons.mp h with h | h
        · exact absurd h.symm hx
        · exact h
      have hrec := ih h'
      simp only [ne_eq, decide_not] at hrec
      simp [List.dropWhile_cons, hx, hrec]

/-- The leftover buffer of the decode loop never contains a NUL byte. -/
theorem drainBuffer_no_null_aux (n : Nat) :
    ∀ buf : List Char, buf.length ≤ n → nullChar ∉ (drainBuffer buf).2 := by
  induction n with
  | zero =>
    intro buf hlen
    have : buf = [] := List.length_eq_zero.mp (Nat.le_zero.mp hlen)
    subst this
    simp [drainBuffer, drainBufferFuel]
  | succ n ih =>
    intro buf hlen
    by_cases hmem : nullChar ∈ buf
    · rw [drainBuffer_eq, if_pos hmem]
      exact ih _ (by have := drainRest_length_lt hmem; omega)
    · rw [drainBuffer_eq, if_neg hmem]
      exact hmem

/-- The leftover buffer of the decode loop never contains a NUL byte. -/
theorem drainBuffer_no_null (buf : List Char) : nullChar ∉ (drainBuffer buf).2 :=
  drainBuffer_no_null_aux buf.length buf le_rfl

/-- Decomposition of the decode loop over an append: drain the first part,
then drain its leftover followed by the second part. -/
theorem drainBuffer_append_aux (n : Nat) :
    ∀ a b : List Char, a.length ≤ n →
      drainBuffer (a ++ b) =
        ((drainBuffer a).1 ++ (drainBuffer ((drainBuffer a).2 ++ b)).1,
          (drainBuffer ((drainBuffer a).2 ++ b)).2) := by
  induction n with
  | zero =>
    intro a b hlen
    have : a = [] := List.length_eq_zero.mp (Nat.le_zero.mp hlen)
    subst this
    simp [show drainBuffer [] = ([], []) from rfl]
  | succ n ih =>
    intro a b hlen
    by_cases hmem : nullChar ∈ a
    · have hd : a.dropWhile (· ≠ nullChar) ≠ [] := by
        simp only [ne_eq, List.dropWhile_eq_nil_iff]
        push_neg
        exact ⟨nullChar, hmem, by simp⟩
      have htail : ((a.dropWhile (· ≠ nullChar)) ++ b).tail =
          (a.dropWhile (· ≠ nullChar)).tail ++ b := by
        rcases hcase : a.dropWhile (· ≠ nullChar) with _ | ⟨d0, d'⟩
        · exact absurd hcase hd
        · simp
      have hrest := drainRest_length_lt hmem
      have hab : drainBuffer (a ++ b) =
          ((classify (a.takeWhile (· ≠ nullChar))).toList ++
              (drainBuffer ((a.dropWhile (· ≠ nullChar)).tail ++ b)).1,
            (drainBuffer ((a.dropWhile (· ≠ nullChar)).tail ++ b)).2) := by
        rw [drainBuffer_eq, if_pos (List.mem_append.mpr (Or.inl hmem)),
          takeWhile_append_of_mem_null b hmem, dropWhile_append_of_mem_null b hmem, htail]
      have ha : drainBuffer a =
          ((classify (a.takeWhile (· ≠ nullChar))).toList ++
              (drainBuffer ((a.dropWhile (· ≠ nullChar)).tail)).1,
            (drainBuffer ((a.dropWhile (· ≠ nullChar)).tail)).2) := by
        rw [drainBuffer_eq, if_pos hmem]
      rw [hab, ha, ih ((a.dropWhile (· ≠ nullChar)).tail) b (by omega)]
      simp [List.append_assoc]
    · rw [drainBuffer_eq a, if_neg hmem]
      simp

/-- Decomposition of the decode loop over an append. -/
theorem drainBuffer_append (a b : List Char) :
    drainBuffer (a ++ b) =
      ((drainBuffer a).1 ++ (drainBuffer ((drainBuffer a).2 ++ b)).1,
        (drainBuffer ((drainBuffer a).2 ++ b)).2) :=
  drainBuffer_append_aux a.length a b le_rfl

/-- `handleData` over concatenated data equals two consecutive calls with
the events concatenated. -/
theorem handleData_append (buffer d1 d2 : List Char) :
    handleData buffer (d1 ++ d2) =
      ((handleData (handleData buffer d1).1 d2).1,
        (handleData buffer d1).2 ++ (handleData (handleData buffer d1).1 d2).2) := by
  unfold handleData
  rw [← List.append_assoc, drainBuffer_append (buffer ++ d1) d2]

/-- A fresh promise has no row in the resolution log, so `resolveOnce`
records the value and the promise then reads back as settled with it. -/
theorem resolveOnce_fresh {st : ErrState} {k : Nat} (v : Option Nat)
    (h : promiseValue st k = none) :
    (resolveOnce st k v).resolutions = st.resolutions ++ [(k, v)] ∧
      promiseValue (resolveOnce st k v) k = some v ∧
      (resolveOnce st k v).errorQueue = st.errorQueue ∧
      (resolveOnce st k v).errorWaiters = st.errorWaiters := by
  have hfind : st.resolutions.find? (fun r => r.1 == k) = none := by
    unfold promiseValue at h
    exact Option.map_eq_none'.mp h
  have hany : st.resolutions.any (fun r => r.1 == k) = false := by
    rw [List.any_eq_false]
    intro r hr
    have := List.find?_eq_none.mp hfind r hr
    simpa using this
  refine ⟨?_, ?_, ?_, ?_⟩ <;>
    simp [resolveOnce, hany, promiseValue, List.find?_append, hfind]

/-- Delivering messages only ever removes listeners. -/
theorem deliverAll_pending_sublist (ms : List String) :
    ∀ s : ClientState, (deliverAll s ms).1.pending.Sublist s.pending := by
  induction ms with
  | nil => intro s; exact List.Sublist.refl _
  | cons m ms ih =>
    intro s
    exact (ih (deliverMessage s m).1).trans (List.filter_sublist _)

/-- Every resolution produced by a delivery sequence belongs to a listener
that was registered at its start and to a delivered message containing
that listener's needle. -/
theorem deliverAll_resolutions_sources (ms : List String) :
    ∀ (s : ClientState) (r : Nat × String), r ∈ (deliverAll s ms).2 →
      (∃ q ∈ s.pending, r.1 = q.tid) ∧
      (∃ m ∈ ms, r.2 = m ∧ jsIncludes m (needle r.1) = true) := by
  induction ms with
  | nil => intro s r hr; exact absurd hr (by simp [deliverAll])
  | cons m ms ih =>
    intro s r hr
    simp only [deliverAll, List.mem_append] at hr
    rcases hr with hr | hr
    · simp only [deliverMessage, List.mem_map, List.mem_filter] at hr
      obtain ⟨q, ⟨hq, hmatch⟩, rfl⟩ := hr
      exact ⟨⟨q, hq, rfl⟩, ⟨m, by simp, rfl, hmatch⟩⟩
    · obtain ⟨⟨q, hq, htid⟩, ⟨m', hm', hr2⟩⟩ := ih _ r hr
      have hq' : q ∈ s.pending :=
        (List.filter_sublist _).subset hq
      exact ⟨⟨q, hq', htid⟩, ⟨m', by simp [hm'], hr2⟩⟩

/-- A listener whose needle matches none of the delivered messages
survives the whole delivery sequence. -/
theorem deliverAll_pending_survives (ms : List String) :
    ∀ (s : ClientState) (q : PendingHandler), q ∈ s.pending →
      (∀ m ∈ ms, jsIncludes m (needle q.tid) = false) →
      q ∈ (deliverAll s ms).1.pending := by
  induction ms with
  | nil => intro s q hq _; exact hq
  | cons m ms ih =>
    intro s q hq hmiss
    refine ih _ q ?_ (fun m' hm' => hmiss m' (by simp [hm']))
    simp only [deliverMessage, List.mem_filter]
    exact ⟨hq, by simp [hmiss m (by simp)]⟩

/-- Erasing from a list in which at most one element satisfies the
predicate leaves no element satisfying it. -/
theorem eraseP_of_countP_le_one {α : Type} (f : α → Bool) :
    ∀ l : List α, l.countP f ≤ 1 → ∀ p ∈ l.eraseP f, f p = false := by
  intro l
  induction l with
  | nil => intro _ p hp; exact absurd hp (by simp)
  | cons x l ih =>
    intro hcount p hp
    cases hf : f x with
    | true =>
      rw [List.eraseP_cons_of_pos hf] at hp
      simp only [List.countP_cons, hf, if_true] at hcount
      have hzero : l.countP f = 0 := by omega
      simpa using List.countP_eq_zero.mp hzero p hp
    | false =>
      rw [List.eraseP_cons_of_neg (by simp [hf])] at hp
      rcases List.mem_cons.mp hp with rfl | hp
      · exact hf
      · simp only [List.countP_cons, hf, if_false] at hcount
        exact ih (by omega) p hp

/-- Filtering a duplicate-free list for one of its members yields exactly
that member. -/
theorem filter_eq_singleton_of_nodup {l : List Nat} {j : Nat}
    (h : l.Nodup) (hj : j ∈ l) :
    l.filter (fun i => decide (i = j)) = [j] := by
  induction l with
  | nil => simp at hj
  | cons x l ih =>
    rcases List.mem_cons.mp hj with rfl | hj'
    · have hj : j ∉ l := (List.nodup_cons.mp h).1
      rw [List.filter_cons_of_pos (by simp)]
      have : l.filter (fun i => decide (i = j)) = [] := by
        rw [List.filter_eq_nil_iff]
        intro a ha
        simp only [decide_eq_true_eq]
        rintro rfl
        exact hj ha
      rw [this]
    · have hx : x ≠ j := by
        rintro rfl
        exact (List.nodup_cons.mp h).1 hj'
      rw [List.filter_cons_of_neg (by simp [hx])]
      exact ih (List.nodup_cons.mp h).2 hj'

/-- Issuing a batch of commands while connected allocates the consecutive
transaction ids starting at the current counter and registers one listener
per command, in order. -/
theorem issueCommands_spec (cmds : List String) :
    ∀ s : ClientState, s.socketPresent = true → s.connected = true →
      issueCommands s cmds =
        ({ s with
            transactionId := s.transactionId + cmds.length,
            pending := s.pending ++ (List.range cmds.length).map
              (fun i => ⟨s.transactionId + i, commandTimeoutMs⟩) },
          (List.range cmds.length).map (fun i => s.transactionId + i)) := by
  induction cmds with
  | nil =>
    intro s h1 h2
    simp [issueCommands]
  | cons c cs ih =>
    intro s h1 h2
    have hsend : sendCommand s c =
        ({ s with
            transactionId := s.transactionId + 1,
            pending := s.pending ++ [⟨s.transactionId, commandTimeoutMs⟩] },
          .ok (s.transactionId, c ++ " -i " ++ toString s.transactionId ++ "\x00")) := by
      simp [sendCommand, h1, h2]
    simp only [issueCommands, hsend]
    rw [ih { s with
        transactionId := s.transactionId + 1,
        pending := s.pending ++ [⟨s.transactionId, commandTimeoutMs⟩] } h1 h2]
    have e1 : s.transactionId + 1 + cs.length = s.transactionId + (cs.length + 1) := by
      omega
    have e2 : ([(⟨s.transactionId, commandTimeoutMs⟩ : PendingHandler)] ++
        (List.range cs.length).map
          (fun i => ⟨s.transactionId + 1 + i, commandTimeoutMs⟩)) =
        (List.range (cs.length + 1)).map
          (fun i => ⟨s.transactionId + i, commandTimeoutMs⟩) := by
      rw [List.range_succ_eq_map, List.map_cons, List.map_map]
      simp only [List.singleton_append, Nat.add_zero]
      congr 1
      refine List.map_congr_left (fun a _ => ?_)
      simp only [Function.comp_apply]
      congr 1
      omega
    have e3 : ([s.transactionId] ++
        (List.range cs.length).map (fun i => s.transactionId + 1 + i)) =
        (List.range (cs.length + 1)).map (fun i => s.transactionId + i) := by
      rw [List.range_succ_eq_map, List.map_cons, List.map_map]
      simp only [List.singleton_append, Nat.add_zero]
      congr 1
      refine List.map_congr_left (fun a _ => ?_)
      simp only [Function.comp_apply]
      omega
    dsimp only
    simp only [List.length_cons]
    rw [List.append_assoc, ← e1, ← e2, ← e3]

/-- Delivery of responses with pairwise-distinct correlation needles, in
an arbitrary order `p` of the outstanding indices `rem`: each delivered
response resolves exactly the listener carrying its own transaction id,
and exactly the undelivered listeners remain registered. -/
theorem deliverAll_perm_aux (N c : Nat) (resp : Nat → String)
    (hresp : ∀ i < N, ∀ j < N, (jsIncludes (resp j) (needle (c + i)) = true ↔ i = j)) :
    ∀ (p rem : List Nat) (s : ClientState),
      p.Nodup → rem.Nodup → (∀ j ∈ p, j ∈ rem) → (∀ i ∈ rem, i < N) →
      s.pending = rem.map (fun i => ⟨c + i, commandTimeoutMs⟩) →
      (deliverAll s (p.map resp)).2 = p.map (fun j => (c + j, resp j)) ∧
      (deliverAll s (p.map resp)).1.pending =
        (rem.filter (fun i => !p.contains i)).map
          (fun i => ⟨c + i, commandTimeoutMs⟩) := by
  intro p
  induction p with
  | nil =>
    intro rem s _ _ _ _ hpend
    refine ⟨by simp [deliverAll], ?_⟩
    simp only [List.map_nil, deliverAll, hpend]
    congr 1
    rw [show rem.filter (fun i => !List.contains [] i) = rem.filter (fun _ => true) from
      List.filter_congr (fun i _ => by simp), List.filter_true]
  | cons j p' ih =>
    intro rem s hnodup_p hnodup_rem hsub hlt hpend
    have hjrem : j ∈ rem := hsub j (by simp)
    have hjN : j < N := hlt j hjrem
    have hmatchpred : ∀ i ∈ rem,
        jsIncludes (resp j) (needle (c + i)) = decide (i = j) := by
      intro i hi
      have hiN := hlt i hi
      by_cases hij : i = j
      · simp [hij, (hresp j hjN j hjN).mpr rfl]
      · have hne : ¬jsIncludes (resp j) (needle (c + i)) = true := fun hinc =>
          hij ((hresp i hiN j hjN).mp hinc)
        simp [hij, Bool.eq_false_iff.mpr hne]
    have hmatched : s.pending.filter (fun q => jsIncludes (resp j) (needle q.tid)) =
        [⟨c + j, commandTimeoutMs⟩] := by
      rw [hpend, List.filter_map]
      rw [List.filter_congr (fun i hi => by
        simp only [Function.comp]
        exact hmatchpred i hi)]
      rw [filter_eq_singleton_of_nodup hnodup_rem hjrem]
      simp
    have hunmatched : s.pending.filter (fun q => !jsIncludes (resp j) (needle q.tid)) =
        (rem.filter (fun i => !decide (i = j))).map
          (fun i => ⟨c + i, commandTimeoutMs⟩) := by
      rw [hpend, List.filter_map]
      rw [List.filter_congr (fun i hi => by
        simp only [Function.comp]
        rw [hmatchpred i hi])]
    have hrem' : ∀ i, i ∈ rem.filter (fun i => !decide (i = j)) ↔ (i ∈ rem ∧ i ≠ j) := by
      intro i
      simp [List.mem_filter]
    obtain ⟨ihres, ihpend⟩ := ih (rem.filter (fun i => !decide (i = j)))
      (deliverMessage s (resp j)).1
      (List.nodup_cons.mp hnodup_p).2
      (hnodup_rem.filter _)
      (fun j' hj' => (hrem' j').mpr
        ⟨hsub j' (by simp [hj']),
          fun hjj => (List.nodup_cons.mp hnodup_p).1 (hjj ▸ hj')⟩)
      (fun i hi => hlt i ((hrem' i).mp hi).1)
      hunmatched
    constructor
    · simp only [List.map_cons, deliverAll]
      rw [ihres]
      have hres1 : (deliverMessage s (resp j)).2 = [(c + j, resp j)] := by
        simp only [deliverMessage, hmatched]
        rfl
      rw [hres1]
      rfl
    · simp only [List.map_cons, deliverAll]
      rw [ihpend, List.filter_filter]
      congr 1
      refine List.filter_congr (fun i _ => ?_)
      rw [List.contains_cons]
      by_cases hij : i = j
      · simp [hij]
      · simp [hij, Nat.beq_eq_true_eq]

/-- Character-level chunk invariance of the decode loop: starting from a
NUL-free buffer, feeding already decoded chunks one at a time emits the
events of feeding their concatenation in one call; and while no NUL byte
is present, nothing is emitted — the data just accumulates. -/
theorem handleData_chunk_invariance_chars (buffer data : List Char)
    (chunks : List (List Char)) (h : nullChar ∉ buffer) :
    handleDataAll buffer chunks = handleData buffer chunks.flatten ∧
    (nullChar ∉ buffer ++ data → handleData buffer data = (buffer ++ data, [])) := by
  constructor
  · induction chunks generalizing buffer with
    | nil =>
      simp only [handleDataAll, List.flatten_nil, handleData, List.append_nil]
      rw [drainBuffer_eq, if_neg h]
    | cons c cs ih =>
      have hstep : nullChar ∉ (handleData buffer c).1 := drainBuffer_no_null _
      simp only [handleDataAll, List.flatten_cons]
      rw [ih _ hstep, handleData_append]
  · intro hno
    simp only [handleData]
    rw [drainBuffer_eq, if_neg hno]

/-- A decode step never lengthens the remaining input. -/
theorem utf8DecodeStep_length (b : Nat) (rest : List Nat) :
    (utf8DecodeStep b rest).2.length ≤ rest.length := by
  rcases rest with _ | ⟨b2, _ | ⟨b3, _ | ⟨b4, r⟩⟩⟩ <;>
    simp only [utf8DecodeStep] <;> split_ifs <;> simp_arith

/-- Any fuel at least the input length computes the decoder's fixpoint. -/
theorem utf8DecodeLossyFuel_stable (fuel : Nat) :
    ∀ bs : List Nat, bs.length ≤ fuel →
      utf8DecodeLossyFuel fuel bs = utf8DecodeLossy bs := by
  induction fuel using Nat.strong_induction_on with
  | _ fuel ih =>
    intro bs hlen
    match fuel with
    | 0 =>
      have : bs = [] := List.length_eq_zero.mp (Nat.le_zero.mp hlen)
      subst this
      rfl
    | fuel + 1 =>
      match bs with
      | [] => rfl
      | b :: rest =>
        have hstep := utf8DecodeStep_length b rest
        simp only [List.length_cons] at hlen
        simp only [utf8DecodeLossyFuel]
        rw [ih fuel (by omega) _ (by omega)]
        show _ = utf8DecodeLossyFuel (rest.length + 1) (b :: rest)
        simp only [utf8DecodeLossyFuel]
        rw [ih rest.length (by omega) _ (by omega)]

/-- The step equation of the lossy decoder. -/
theorem utf8DecodeLossy_cons (b : Nat) (rest : List Nat) :
    utf8DecodeLossy (b :: rest) =
      (utf8DecodeStep b rest).1 :: utf8DecodeLossy (utf8DecodeStep b rest).2 := by
  have hstep := utf8DecodeStep_length b rest
  show utf8DecodeLossyFuel (rest.length + 1) (b :: rest) = _
  simp only [utf8DecodeLossyFuel]
  rw [utf8DecodeLossyFuel_stable rest.length _ (by omega)]

/-- Decoding the UTF-8 encoding of one character followed by further bytes
yields that character followed by the decode of the rest. -/
theorem utf8DecodeLossy_encode_cons (c : Char) (bs : List Nat) :
    utf8DecodeLossy (utf8EncodeCharNat c ++ bs) = c :: utf8DecodeLossy bs := by
  have hval : c.toNat = c.val.toNat := rfl
  have hlt : c.toNat < 0x110000 := by
    rcases c.valid with h | ⟨_, h2⟩ <;> omega
  by_cases h1 : c.toNat < 0x80
  · rw [show utf8EncodeCharNat c = [c.toNat] from by simp [utf8EncodeCharNat, h1]]
    simp only [List.cons_append, List.nil_append]
    rw [utf8DecodeLossy_cons,
      show utf8DecodeStep c.toNat bs = (Char.ofNat c.toNat, bs) from by
        simp [utf8DecodeStep, h1]]
    rw [Char.ofNat_toNat]
  · by_cases h2 : c.toNat < 0x800
    · rw [show utf8EncodeCharNat c = [0xc0 + c.toNat / 64, 0x80 + c.toNat % 64] from by
        simp [utf8EncodeCharNat, h1, h2]]
      simp only [List.cons_append, List.nil_append]
      have hstep : utf8DecodeStep (0xc0 + c.toNat / 64) ((0x80 + c.toNat % 64) :: bs) =
          (Char.ofNat c.toNat, bs) := by
        have e1 : ¬(0xc0 + c.toNat / 64 < 0x80) := by omega
        have e2 : 0xc2 ≤ 0xc0 + c.toNat / 64 ∧ 0xc0 + c.toNat / 64 ≤ 0xdf :=
          ⟨by omega, by omega⟩
        have e3 : 0x80 ≤ 0x80 + c.toNat % 64 ∧ 0x80 + c.toNat % 64 < 0xc0 :=
          ⟨by omega, by omega⟩
        simp only [utf8DecodeStep]
        rw [if_neg e1, if_pos e2, if_pos e3,
          show (0xc0 + c.toNat / 64 - 0xc0) * 64 + (0x80 + c.toNat % 64 - 0x80)
            = c.toNat from by omega]
      rw [utf8DecodeLossy_cons, hstep]
      rw [Char.ofNat_toNat]
    · by_cases h3 : c.toNat < 0x10000
      · rw [show utf8EncodeCharNat c =
            [0xe0 + c.toNat / 4096, 0x80 + c.toNat / 64 % 64, 0x80 + c.toNat % 64] from by
          simp [utf8EncodeCharNat, h1, h2, h3]]
        simp only [List.cons_append, List.nil_append]
        have hstep : utf8DecodeStep (0xe0 + c.toNat / 4096)
            ((0x80 + c.toNat / 64 % 64) :: (0x80 + c.toNat % 64) :: bs) =
            (Char.ofNat c.toNat, bs) := by
          have e1 : ¬(0xe0 + c.toNat / 4096 < 0x80) := by omega
          have e2 : ¬(0xc2 ≤ 0xe0 + c.toNat / 4096 ∧ 0xe0 + c.toNat / 4096 ≤ 0xdf) := by
            omega
          have e3 : 0xe0 ≤ 0xe0 + c.toNat / 4096 ∧ 0xe0 + c.toNat / 4096 ≤ 0xef :=
            ⟨by omega, by omega⟩
          have e4 : 0x80 ≤ 0x80 + c.toNat / 64 % 64 ∧ 0x80 + c.toNat / 64 % 64 < 0xc0 ∧
              0x80 ≤ 0x80 + c.toNat % 64 ∧ 0x80 + c.toNat % 64 < 0xc0 :=
            ⟨by omega, by omega, by omega, by omega⟩
          simp only [utf8DecodeStep]
          rw [if_neg e1, if_neg e2, if_pos e3, if_pos e4,
            show (0xe0 + c.toNat / 4096 - 0xe0) * 4096 +
                (0x80 + c.toNat / 64 % 64 - 0x80) * 64 + (0x80 + c.toNat % 64 - 0x80)
              = c.toNat from by omega]
        rw [utf8DecodeLossy_cons, hstep]
        rw [Char.ofNat_toNat]
      · rw [show utf8EncodeCharNat c =
            [0xf0 + c.toNat / 262144, 0x80 + c.toNat / 4096 % 64,
              0x80 + c.toNat / 64 % 64, 0x80 + c.toNat % 64] from by
          simp [utf8EncodeCharNat, h1, h2, h3]]
        simp only [List.cons_append, List.nil_append]
        have hstep : utf8DecodeStep (0xf0 + c.toNat / 262144)
            ((0x80 + c.toNat / 4096 % 64) :: (0x80 + c.toNat / 64 % 64) ::
              (0x80 + c.toNat % 64) :: bs) =
            (Char.ofNat c.toNat, bs) := by
          have e1 : ¬(0xf0 + c.toNat / 262144 < 0x80) := by omega
          have e2 : ¬(0xc2 ≤ 0xf0 + c.toNat / 262144 ∧
              0xf0 + c.toNat / 262144 ≤ 0xdf) := by omega
          have e3 : ¬(0xe0 ≤ 0xf0 + c.toNat / 262144 ∧
              0xf0 + c.toNat / 262144 ≤ 0xef) := by omega
          have e4 : 0xf0 ≤ 0xf0 + c.toNat / 262144 ∧ 0xf0 + c.toNat / 262144 ≤ 0xf4 :=
            ⟨by omega, by omega⟩
          have e5 : 0x80 ≤ 0x80 + c.toNat / 4096 % 64 ∧
              0x80 + c.toNat / 4096 % 64 < 0xc0 ∧
              0x80 ≤ 0x80 + c.toNat / 64 % 64 ∧ 0x80 + c.toNat / 64 % 64 < 0xc0 ∧
              0x80 ≤ 0x80 + c.toNat % 64 ∧ 0x80 + c.toNat % 64 < 0xc0 :=
            ⟨by omega, by omega, by omega, by omega, by omega, by omega⟩
          simp only [utf8DecodeStep]
          rw [if_neg e1, if_neg e2, if_neg e3, if_pos e4, if_pos e5,
            show (0xf0 + c.toNat / 262144 - 0xf0) * 262144 +
                (0x80 + c.toNat / 4096 % 64 - 0x80) * 4096 +
                (0x80 + c.toNat / 64 % 64 - 0x80) * 64 + (0x80 + c.toNat % 64 - 0x80)
              = c.toNat from by omega]
        rw [utf8DecodeLossy_cons, hstep]
        rw [Char.ofNat_toNat]

/-- Decoding the UTF-8 encoding of a character sequence followed by
further bytes yields the sequence followed by the decode of the rest. -/
theorem utf8DecodeLossy_encodeChars_append (s : List Char) (bs : List Nat) :
    utf8DecodeLossy (utf8EncodeChars s ++ bs) = s ++ utf8DecodeLossy bs := by
  induction s with
  | nil => simp [utf8EncodeChars]
  | cons c s ih =>
    rw [show utf8EncodeChars (c :: s) = utf8EncodeCharNat c ++ utf8EncodeChars s from by
      simp [utf8EncodeChars], List.append_assoc, utf8DecodeLossy_encode_cons, ih,
      List.cons_append]

/-- The per-chunk decode of a character-boundary partition reproduces the
chunks: each byte chunk that is a whole number of UTF-8 characters decodes
to exactly those characters. -/
theorem utf8DecodeLossy_encodeChars (s : List Char) :
    utf8DecodeLossy (utf8EncodeChars s) = s := by
  have h := utf8DecodeLossy_encodeChars_append s []
  rw [show utf8DecodeLossy [] = [] from rfl, List.append_nil, List.append_nil] at h
  exact h

/-- The one-shot decode of the concatenated character-boundary chunks is
the concatenation of the chunks' characters. -/
theorem utf8DecodeLossy_flatten_encode (chunks : List (List Char)) :
    utf8DecodeLossy ((chunks.map utf8EncodeChars).flatten) = chunks.flatten := by
  induction chunks with
  | nil => rfl
  | cons c cs ih =>
    rw [List.map_cons, List.flatten_cons, utf8DecodeLossy_encodeChars_append, ih,
      List.flatten_cons]

/-- Feeding byte chunks that each end on a character boundary is the same
as feeding the decoded character chunks. -/
theorem handleDataBytesAll_map_encode (chunks : List (List Char)) :
    ∀ buffer : List Char,
      handleDataBytesAll buffer (chunks.map utf8EncodeChars) =
        handleDataAll buffer chunks := by
  induction chunks with
  | nil => intro buffer; rfl
  | cons c cs ih =>
    intro buffer
    simp only [List.map_cons, handleDataBytesAll, handleDataAll, handleDataBytes,
      utf8DecodeLossy_encodeChars]
    rw [ih]

/-! ## Claims -/

/-- C9: every control or inspection command (run, step into/over/out, stop,
status, breakpoint set/remove/list, variables, evaluate, stack trace)
issued while no debuggee socket is connected fails immediately with the
descriptive not-connected error and leaves the client state unchanged:
nothing is written to a socket, no listener is registered, no timeout is
armed. -/
theorem commands_fail_fast_when_disconnected (s : ClientState)
    (file bpId expr : String) (line ctx : Nat) (cond : Option String)
    (h : s.socketPresent = false ∨ s.connected = false) :
    runCmd s = (s, .error notConnectedError) ∧
    stepIntoCmd s = (s, .error notConnectedError) ∧
    stepOverCmd s = (s, .error notConnectedError) ∧
    stepOutCmd s = (s, .error notConnectedError) ∧
    stopCmd s = (s, .error notConnectedError) ∧
    getStatusCmd s = (s, .error notConnectedError) ∧
    setBreakpointCmd s file line cond = (s, .error notConnectedError) ∧
    removeBreakpointCmd s bpId = (s, .error notConnectedError) ∧
    listBreakpointsCmd s = (s, .error notConnectedError) ∧
    getVariablesCmd s ctx = (s, .error notConnectedError) ∧
    evaluateExpressionCmd s expr = (s, .error notConnectedError) ∧
    getStackTraceCmd s = (s, .error notConnectedError) := by
  refine ⟨?_, ?_, ?_, ?_, ?_, ?_, ?_, ?_, ?_, ?_, ?_, ?_⟩ <;>
    simp only [runCmd, stepIntoCmd, stepOverCmd, stepOutCmd, stopCmd, getStatusCmd,
      setBreakpointCmd, removeBreakpointCmd, listBreakpointsCmd, getVariablesCmd,
      evaluateExpressionCmd, getStackTraceCmd, sendCommand_not_connected _ h]

/-- Witness for C9 at a concrete disconnected state. -/
theorem commands_fail_fast_when_disconnected_witness :
    ((⟨5, false, false, []⟩ : ClientState).socketPresent = false ∨
      (⟨5, false, false, []⟩ : ClientState).connected = false) ∧
    runCmd ⟨5, false, false, []⟩ = (⟨5, false, false, []⟩, .error notConnectedError) :=
  ⟨Or.inl rfl,
    (commands_fail_fast_when_disconnected ⟨5, false, false, []⟩ "a.ahk" "1" "x" 3 0 none
      (Or.inl rfl)).1⟩

/-- C10: a `sendCommand` call that fails the not-connected precondition
leaves the client state — in particular the transaction-id counter —
unchanged, so the next successful send uses exactly the id the failed one
would have used. -/
theorem sendCommand_failed_send_frame (s : ClientState) (cmd nextCmd : String)
    (h : s.socketPresent = false ∨ s.connected = false) :
    (sendCommand s cmd).1 = s ∧
    (sendCommand s cmd).1.transactionId = s.transactionId ∧
    (sendCommand { s with connected := true, socketPresent := true } nextCmd).2 =
      .ok (s.transactionId, nextCmd ++ " -i " ++ toString s.transactionId ++ "\x00") := by
  rw [sendCommand_not_connected cmd h]
  exact ⟨rfl, rfl, by simp [sendCommand]⟩

/-- Witness for C10 at a concrete state with `connected = false`. -/
theorem sendCommand_failed_send_frame_witness :
    ((⟨7, false, true, []⟩ : ClientState).socketPresent = false ∨
      (⟨7, false, true, []⟩ : ClientState).connected = false) ∧
    (sendCommand ⟨7, false, true, []⟩ "run").1.transactionId = 7 :=
  ⟨Or.inr rfl,
    (sendCommand_failed_send_frame ⟨7, false, true, []⟩ "run" "status" (Or.inr rfl)).2.1⟩

/-- C8: the error queue never exceeds `errorQueueMaxSize` (100) entries,
and eviction is FIFO: enqueuing 101 distinct markers into an empty queue
leaves exactly the last 100, the earliest marker being the one missing. -/
theorem queueError_bounded_fifo (st st0 : ErrState) (e : Nat) (markers : List Nat)
    (hbound : st.errorQueue.length ≤ errorQueueMaxSize)
    (hq0 : st0.errorQueue = []) (hnodup : markers.Nodup) (hlen : markers.length = 101) :
    (queueError st e).errorQueue.length ≤ errorQueueMaxSize ∧
    (markers.foldl queueError st0).errorQueue = markers.tail ∧
    (markers.foldl queueError st0).errorQueue.length = 100 ∧
    ∀ m, markers.head? = some m → m ∉ (markers.foldl queueError st0).errorQueue := by
  have hfold : (markers.foldl queueError st0).errorQueue = markers.tail := by
    rw [foldl_queueError_errorQueue markers st0 (by simp [hq0])]
    rw [hq0]
    simp only [List.nil_append]
    rw [hlen]
    show markers.drop (101 - errorQueueMaxSize) = markers.tail
    rw [show 101 - errorQueueMaxSize = 1 from rfl, List.drop_one]
  refine ⟨?_, hfold, ?_, ?_⟩
  · rw [queueError_errorQueue]
    split <;> simp_all
  · rw [hfold, List.length_tail, hlen]
  · intro m hm
    rw [hfold]
    rcases markers with _ | ⟨m0, rest⟩
    · simp at hm
    · simp only [List.head?_cons, Option.some.injEq] at hm
      subst hm
      simpa using (List.nodup_cons.mp hnodup).1

/-- Witness for C8: 101 distinct markers into an initially empty queue. -/
theorem queueError_bounded_fifo_witness :
    (⟨[], [], []⟩ : ErrState).errorQueue = [] ∧ (List.range 101).Nodup ∧
      (List.range 101).length = 101 ∧
      ((List.range 101).foldl queueError ⟨[], [], []⟩).errorQueue.length = 100 :=
  ⟨rfl, List.nodup_range 101, by simp,
    (queueError_bounded_fifo ⟨[], [], []⟩ ⟨[], [], []⟩ 0 (List.range 101) (by simp) rfl
      (List.nodup_range 101) (by simp)).2.2.1⟩

/-- C1 counterexample: starting from an empty queue with one registered
waiter (call 0), `queueError 7` delivers the error to the waiter — call 0
resolves with 7 — yet 7 still appears in the `getQueuedErrors` snapshot
and an immediately following `waitForError` (call 1) returns 7 again, so
an error handed to a pending waiter is not removed from the FIFO. -/
theorem queueError_waiter_retention_counterexample :
    promiseValue (queueError (waitForError ⟨[], [], []⟩ 0) 7) 0 = some (some 7) ∧
    getQueuedErrors (queueError (waitForError ⟨[], [], []⟩ 0) 7) = [7] ∧
    promiseValue (waitForError (queueError (waitForError ⟨[], [], []⟩ 0) 7) 1) 1 =
      some (some 7) := by
  decide

/-- C1 (amended): an error returned directly by `waitForError` from a
non-empty queue is removed from the FIFO (the snapshot becomes the tail);
but an error handed to a pending waiter by `queueError` remains in the
FIFO: it still appears in the `getQueuedErrors` snapshot and can be
returned again later. -/
theorem error_delivery_retention (st st' : ErrState) (k k' e : Nat) (ws : List FnRef) :
    (∀ e0 rest, st.errorQueue = e0 :: rest → promiseValue st k = none →
      (waitForError st k).errorQueue = rest ∧
      getQueuedErrors (waitForError st k) = rest ∧
      promiseValue (waitForError st k) k = some (some e0)) ∧
    (st'.errorQueue = [] → st'.errorWaiters = .wrapperFn k' :: ws →
      promiseValue st' k' = none →
      promiseValue (queueError st' e) k' = some (some e) ∧
      getQueuedErrors (queueError st' e) = [e]) := by
  constructor
  · intro e0 rest hq hfresh
    have hw : waitForError st k = resolveOnce { st with errorQueue := rest } k (some e0) := by
      simp [waitForError, hq]
    have hfresh2 : promiseValue { st with errorQueue := rest } k = none := hfresh
    obtain ⟨_, hval, hque, _⟩ :=
      @resolveOnce_fresh { st with errorQueue := rest } k (some e0) hfresh2
    rw [hw]
    exact ⟨hque, hque, hval⟩
  · intro hq hwl hfresh
    have hnoevict : ((st'.errorQueue ++ [e]).length > errorQueueMaxSize) = False := by
      simp [hq, errorQueueMaxSize]
    have hstep : queueError st' e =
        invokeWaiter { st' with errorQueue := [e], errorWaiters := ws } (.wrapperFn k') e := by
      simp only [queueError, hwl, hq]
      norm_num [errorQueueMaxSize]
    have hfresh2 : promiseValue { st' with errorQueue := [e], errorWaiters := ws } k' =
        none := hfresh
    obtain ⟨_, hval, hque, _⟩ :=
      @resolveOnce_fresh { st' with errorQueue := [e], errorWaiters := ws } k' (some e)
        hfresh2
    rw [hstep]
    exact ⟨hval, hque⟩

/-- Witness for C1 (amended), both branches at concrete states. -/
theorem error_delivery_retention_witness :
    ((⟨[3, 4], [], []⟩ : ErrState).errorQueue = 3 :: [4] ∧
      getQueuedErrors (waitForError ⟨[3, 4], [], []⟩ 0) = [4] ∧
      promiseValue (waitForError ⟨[3, 4], [], []⟩ 0) 0 = some (some 3)) ∧
    (promiseValue (queueError ⟨[], [.wrapperFn 1], []⟩ 9) 1 = some (some 9) ∧
      getQueuedErrors (queueError ⟨[], [.wrapperFn 1], []⟩ 9) = [9]) :=
  ⟨⟨rfl,
    ((error_delivery_retention ⟨[3, 4], [], []⟩ ⟨[], [], []⟩ 0 0 0 []).1 3 [4] rfl rfl).2.1,
    ((error_delivery_retention ⟨[3, 4], [], []⟩ ⟨[], [], []⟩ 0 0 0 []).1 3 [4] rfl rfl).2.2⟩,
    (error_delivery_retention ⟨[], [], []⟩ ⟨[], [.wrapperFn 1], []⟩ 0 1 9 []).2 rfl rfl rfl⟩

/-- C7: the timed-out `waitForError` call 0 resolves with null as claimed,
but its waiter registration is not removed — `indexOf(resolve)` searches
for the resolver function while the list stores the wrapper closure — so
after a second call 1 registers, `queueError 9` hands the error to the
stale waiter of call 0 (a no-op: that promise is already settled) and the
live waiter of call 1 is never notified. -/
theorem waitForError_timeout_stale_waiter :
    promiseValue (waiterTimeout (waitForError ⟨[], [], []⟩ 0) 0) 0 = some none ∧
    (waiterTimeout (waitForError ⟨[], [], []⟩ 0) 0).errorWaiters = [.wrapperFn 0] ∧
    promiseValue
      (queueError (waitForError (waiterTimeout (waitForError ⟨[], [], []⟩ 0) 0) 1) 9) 1 =
      none ∧
    ErrState.errorWaiters
      (queueError (waitForError (waiterTimeout (waitForError ⟨[], [], []⟩ 0) 0) 1) 9) =
      [.wrapperFn 1] := by
  decide

/-- C2: the property parser base64-decodes text content — base64 of
`hello` yields `hello` — but the claimed fallback to the raw text for
invalid base64 never happens: `Buffer.from(text, 'base64')` never throws,
so the text `!!!!` (not valid base64) decodes to the empty string instead
of being kept as `!!!!`. -/
theorem parseProperties_fallback_dead :
    parseProperties "<property name=\"x\">aGVsbG8=</property>" =
      [⟨" name=\"x\"", "aGVsbG8=", some "hello"⟩] ∧
    parseProperties "<property name=\"x\">!!!!</property>" =
      [⟨" name=\"x\"", "!!!!", some ""⟩] ∧
    (some "" : Option String) ≠ some "!!!!" := by
  refine ⟨by decide, by decide, by decide⟩

/-- C4 counterexample: byte-level chunk invariance fails as claimed.  The
frame `é` (bytes C3 A9) followed by the NUL terminator, partitioned
between the two bytes of `é`, yields a message of two replacement
characters from the chunked feed — each chunk's `data.toString()` decodes
the split character's fragments separately — while the one-shot feed
yields the message `é`. -/
theorem handleData_byte_split_counterexample :
    (handleDataBytes [] [0xc3, 0xa9, 0x00]).2 =
      [WireEvent.messageEvent [Char.ofNat 0xe9]] ∧
    (handleDataBytesAll [] [[0xc3], [0xa9, 0x00]]).2 =
      [WireEvent.messageEvent [Char.ofNat 0xfffd, Char.ofNat 0xfffd]] ∧
    (handleDataBytesAll [] [[0xc3], [0xa9, 0x00]]).2 ≠
      (handleDataBytes [] ([[0xc3], [0xa9, 0x00]] : List (List Nat)).flatten).2 := by
  decide

/-- C4 (amended): starting from any NUL-free buffer (the codec's steady
state), feeding the chunks of any partition of the byte stream whose
boundaries fall on UTF-8 character boundaries — each chunk a whole number
of encoded characters — emits exactly the events of feeding the whole
stream in one call and leaves the same buffer; partitions that split a
multibyte character are excluded, since the per-chunk `data.toString()`
corrupts them (see the counterexample).  And while the buffer holds no NUL
byte, nothing is emitted — the decoded data just accumulates. -/
theorem handleData_chunk_invariance_utf8 (buffer : List Char) (data : List Nat)
    (chunks : List (List Char)) (h : nullChar ∉ buffer) :
    handleDataBytesAll buffer (chunks.map utf8EncodeChars) =
      handleDataBytes buffer ((chunks.map utf8EncodeChars).flatten) ∧
    (nullChar ∉ buffer ++ utf8DecodeLossy data →
      handleDataBytes buffer data = (buffer ++ utf8DecodeLossy data, [])) := by
  constructor
  · rw [handleDataBytesAll_map_encode chunks buffer]
    unfold handleDataBytes
    rw [utf8DecodeLossy_flatten_encode]
    exact (handleData_chunk_invariance_chars buffer [] chunks h).1
  · intro hno
    unfold handleDataBytes
    exact (handleData_chunk_invariance_chars buffer (utf8DecodeLossy data) [] h).2 hno

/-- Witness for C4 (amended): the frame `é` NUL split at the character
boundary after `é`. -/
theorem handleData_chunk_invariance_utf8_witness :
    nullChar ∉ ([] : List Char) ∧
    handleDataBytesAll [] ([[Char.ofNat 0xe9], ['\x00']].map utf8EncodeChars) =
      handleDataBytes [] (([[Char.ofNat 0xe9], ['\x00']].map utf8EncodeChars).flatten) :=
  ⟨by decide,
    (handleData_chunk_invariance_utf8 [] [] [[Char.ofNat 0xe9], ['\x00']] (by decide)).1⟩

/-- C5: N commands issued through `sendCommand` while connected receive
the N consecutive (hence distinct) transaction ids, and delivering their
response messages — each containing exactly its own id's needle — in any
permuted order resolves each pending call with the response carrying its
own transaction id, never with another call's response; afterwards no
listener remains. -/
theorem transaction_correlation (s0 : ClientState) (cmds : List String)
    (resp : Nat → String) (perm : List Nat)
    (hsock : s0.socketPresent = true) (hconn : s0.connected = true)
    (hpend : s0.pending = [])
    (hnodup : perm.Nodup)
    (hmem : ∀ j ∈ perm, j < cmds.length)
    (hall : ∀ j < cmds.length, j ∈ perm)
    (hresp : ∀ i < cmds.length, ∀ j < cmds.length,
      (jsIncludes (resp j) (needle (s0.transactionId + i)) = true ↔ i = j)) :
    (issueCommands s0 cmds).2 =
      (List.range cmds.length).map (fun i => s0.transactionId + i) ∧
    (deliverAll (issueCommands s0 cmds).1 (perm.map resp)).2 =
      perm.map (fun j => (s0.transactionId + j, resp j)) ∧
    (deliverAll (issueCommands s0 cmds).1 (perm.map resp)).1.pending = [] := by
  have hspec := issueCommands_spec cmds s0 hsock hconn
  have hpend1 : (issueCommands s0 cmds).1.pending =
      (List.range cmds.length).map
        (fun i => ⟨s0.transactionId + i, commandTimeoutMs⟩) := by
    rw [hspec]
    dsimp only
    rw [hpend, List.nil_append]
  obtain ⟨hres, hpend2⟩ := deliverAll_perm_aux cmds.length s0.transactionId resp hresp
    perm (List.range cmds.length) (issueCommands s0 cmds).1 hnodup (List.nodup_range _)
    (fun j hj => List.mem_range.mpr (hmem j hj)) (fun i hi => List.mem_range.mp hi)
    hpend1
  refine ⟨by rw [hspec], hres, ?_⟩
  rw [hpend2]
  have hempty : (List.range cmds.length).filter (fun i => !perm.contains i) = [] := by
    rw [List.filter_eq_nil_iff]
    intro a ha
    have hin : a ∈ perm := hall a (List.mem_range.mp ha)
    intro hbad
    have helem : perm.elem a = true := List.elem_iff.mpr hin
    rw [show perm.contains a = perm.elem a from rfl, helem] at hbad
    simp at hbad

  rw [hempty, List.map_nil]

/-- Witness for C5: two commands, responses delivered in reversed order. -/
theorem transaction_correlation_witness :
    (([1, 0] : List Nat).Nodup ∧
      (∀ i < 2, ∀ j < 2,
        (jsIncludes ((fun j => if j = 0 then
              "<response command=\"run\" transaction_id=\"1\"/>"
            else "<response command=\"status\" transaction_id=\"2\"/>") j)
          (needle (1 + i)) = true ↔ i = j))) ∧
    (deliverAll (issueCommands ⟨1, true, true, []⟩ ["run", "status"]).1
        ([1, 0].map (fun j => if j = 0 then
            "<response command=\"run\" transaction_id=\"1\"/>"
          else "<response command=\"status\" transaction_id=\"2\"/>"))).2 =
      [1, 0].map (fun j => (1 + j, if j = 0 then
          "<response command=\"run\" transaction_id=\"1\"/>"
        else "<response command=\"status\" transaction_id=\"2\"/>")) :=
  ⟨⟨by decide, by decide⟩,
    (transaction_correlation ⟨1, true, true, []⟩ ["run", "status"] _ [1, 0] rfl rfl rfl
      (by decide) (by decide) (by decide) (by decide)).2.1⟩

/-- C6: a command sent while connected, none of whose delivered messages
ever contains its transaction-id needle, keeps its listener registered
with the fixed 10-second deadline; the timer then rejects with
`Command timeout` and removes the listener, so messages arriving
afterwards neither resolve the stale entry nor raise anything from it.
(The freshness hypothesis on `pending` is the source's invariant: the
monotonic counter never reuses a transaction id.) -/
theorem sendCommand_timeout_removes_listener (s0 : ClientState) (cmd : String)
    (ms1 ms2 : List String)
    (hsock : s0.socketPresent = true) (hconn : s0.connected = true)
    (hfresh : ∀ p ∈ s0.pending, p.tid ≠ s0.transactionId)
    (hmiss : ∀ m ∈ ms1, jsIncludes m (needle s0.transactionId) = false) :
    (sendCommand s0 cmd).2 =
      .ok (s0.transactionId, cmd ++ " -i " ++ toString s0.transactionId ++ "\x00") ∧
    commandTimeoutMs = 10000 ∧
    (∀ r ∈ (deliverAll (sendCommand s0 cmd).1 ms1).2, r.1 ≠ s0.transactionId) ∧
    ⟨s0.transactionId, commandTimeoutMs⟩ ∈ (deliverAll (sendCommand s0 cmd).1 ms1).1.pending ∧
    (fireCommandTimeout (deliverAll (sendCommand s0 cmd).1 ms1).1 s0.transactionId).2 =
      "Command timeout" ∧
    (∀ p ∈ (fireCommandTimeout (deliverAll (sendCommand s0 cmd).1 ms1).1
        s0.transactionId).1.pending, p.tid ≠ s0.transactionId) ∧
    (∀ r ∈ (deliverAll (fireCommandTimeout (deliverAll (sendCommand s0 cmd).1 ms1).1
        s0.transactionId).1 ms2).2, r.1 ≠ s0.transactionId) := by
  have hsend : sendCommand s0 cmd =
      ({ s0 with
          transactionId := s0.transactionId + 1,
          pending := s0.pending ++ [⟨s0.transactionId, commandTimeoutMs⟩] },
        .ok (s0.transactionId, cmd ++ " -i " ++ toString s0.transactionId ++ "\x00")) := by
    simp [sendCommand, hsock, hconn]
  have hstale : ∀ p ∈ (fireCommandTimeout (deliverAll (sendCommand s0 cmd).1 ms1).1
      s0.transactionId).1.pending, p.tid ≠ s0.transactionId := by
    intro p hp
    have hsub : (deliverAll (sendCommand s0 cmd).1 ms1).1.pending.Sublist
        (sendCommand s0 cmd).1.pending := deliverAll_pending_sublist ms1 _
    have hcount1 : (sendCommand s0 cmd).1.pending.countP
        (fun q => q.tid == s0.transactionId) ≤ 1 := by
      rw [hsend]
      simp only [List.countP_append]
      have h0 : s0.pending.countP (fun q => q.tid == s0.transactionId) = 0 := by
        rw [List.countP_eq_zero]
        intro q hq
        simpa using hfresh q hq
      simp [h0, List.countP_cons]
    have hcount2 : (deliverAll (sendCommand s0 cmd).1 ms1).1.pending.countP
        (fun q => q.tid == s0.transactionId) ≤ 1 :=
      le_trans (hsub.countP_le _) hcount1
    simp only [fireCommandTimeout] at hp
    have := eraseP_of_countP_le_one (fun q => q.tid == s0.transactionId) _ hcount2 p hp
    simpa using this
  refine ⟨by rw [hsend], rfl, ?_, ?_, rfl, hstale, ?_⟩
  · intro r hr
    obtain ⟨_, ⟨m, hm, _, hinc⟩⟩ := deliverAll_resolutions_sources ms1 _ r hr
    intro hrt
    rw [hrt] at hinc
    rw [hmiss m hm] at hinc
    exact Bool.false_ne_true hinc
  · refine deliverAll_pending_survives ms1 _ _ ?_ hmiss
    rw [hsend]
    simp
  · intro r hr
    obtain ⟨⟨q, hq, htid⟩, _⟩ := deliverAll_resolutions_sources ms2 _ r hr
    rw [htid]
    exact hstale q hq

/-- Witness for C6: one command, one unrelated message before the timeout,
one matching-but-late message after it. -/
theorem sendCommand_timeout_removes_listener_witness :
    ((⟨1, true, true, []⟩ : ClientState).socketPresent = true ∧
      (∀ m ∈ ["<response transaction_id=\"9\"/>"],
        jsIncludes m (needle 1) = false)) ∧
    ∀ r ∈ (deliverAll (fireCommandTimeout
        (deliverAll (sendCommand ⟨1, true, true, []⟩ "run").1
          ["<response transaction_id=\"9\"/>"]).1 1).1
        ["<response transaction_id=\"1\"/>"]).2, r.1 ≠ 1 :=
  ⟨⟨rfl, by decide⟩,
    (sendCommand_timeout_removes_listener ⟨1, true, true, []⟩ "run"
      ["<response transaction_id=\"9\"/>"] ["<response transaction_id=\"1\"/>"]
      rfl rfl (by simp) (by decide)).2.2.2.2.2.2⟩

/-- C3 counterexample: the target line `  x` does not exactly match the
expected original `x`, yet `applyFix` still modifies the file (the
comparison trims both sides), and the replacement ` y ` lands trimmed,
prefixed with the original line's indentation. -/
theorem applyFix_exact_match_counterexample :
    splitLines "  x" = ["  x"] ∧
    ("  x" : String) ≠ "x" ∧
    applyFix "f.ahk" "  x" 1 "x" " y " =
      .ok "  y" "Fix applied at f.ahk:1\n- Old: x\n+ New: y" := by
  decide

/-- C3 (amended): `applyFix` modifies the file iff the target line number
is in range and the target line's content equals the expected original
after trimming leading and trailing whitespace from both (not an exact
comparison).  On a trimmed match the file is rewritten as the original
lines joined with LF, with only the target line changed — it becomes the
original line's leading whitespace followed by the trimmed replacement.
On a trimmed mismatch (or an out-of-range line) a descriptive error is
returned — for a mismatch it shows both the expected and the actual
trimmed content — and nothing is written. -/
theorem applyFix_trimmed_guard (file content : String) (line : Nat)
    (original replacement : String) :
    (line < 1 ∨ line > (splitLines content).length →
      applyFix file content line original replacement =
        .err ("Line " ++ toString line ++ " is out of range (file has " ++
          toString (splitLines content).length ++ " lines)")) ∧
    (1 ≤ line → line ≤ (splitLines content).length →
      (jsTrim ((splitLines content).getD (line - 1) "") ≠ jsTrim original →
        applyFix file content line original replacement =
          .err ("Line mismatch at " ++ toString line ++ ".\nExpected: \"" ++
            jsTrim original ++ "\"\nFound: \"" ++
            jsTrim ((splitLines content).getD (line - 1) "") ++ "\"")) ∧
      (jsTrim ((splitLines content).getD (line - 1) "") = jsTrim original →
        applyFix file content line original replacement =
          .ok (String.intercalate "\n" ((splitLines content).set (line - 1)
                (leadingSpace ((splitLines content).getD (line - 1) "") ++
                  jsTrim replacement)))
            ("Fix applied at " ++ file ++ ":" ++ toString line ++ "\n- Old: " ++
              jsTrim original ++ "\n+ New: " ++ jsTrim replacement) ∧
        ∀ i, i ≠ line - 1 →
          ((splitLines content).set (line - 1)
              (leadingSpace ((splitLines content).getD (line - 1) "") ++
                jsTrim replacement)).getD i "" =
            (splitLines content).getD i "")) := by
  constructor
  · intro h
    have hcond : (line < 1 || line > (splitLines content).length) = true := by
      rcases h with h | h <;> simp [h]
    simp only [applyFix, hcond, if_true]
  · intro h1 h2
    have hcond : (line < 1 || line > (splitLines content).length) = false := by
      simp only [Bool.or_eq_false_iff, decide_eq_false_iff_not, not_lt]
      omega
    constructor
    · intro hne
      simp only [applyFix, hcond, Bool.false_eq_true, if_false, if_pos hne]
    · intro heq
      refine ⟨?_, ?_⟩
      · simp only [applyFix, hcond, Bool.false_eq_true, if_false, heq, if_neg
          (by simp : ¬jsTrim original ≠ jsTrim original)]
      · intro i hi
        rw [List.getD_eq_getElem?_getD, List.getElem?_set_ne (Ne.symm hi),
          ← List.getD_eq_getElem?_getD]

/-- Witness for C3 (amended): a trimmed match on line 2 of a three-line
file. -/
theorem applyFix_trimmed_guard_witness :
    (1 ≤ 2 ∧ 2 ≤ (splitLines "a\n  b\nc").length ∧
      jsTrim ((splitLines "a\n  b\nc").getD 1 "") = jsTrim "b") ∧
    applyFix "f.ahk" "a\n  b\nc" 2 "b" "q" =
      .ok "a\n  q\nc" "Fix applied at f.ahk:2\n- Old: b\n+ New: q" := by
  refine ⟨⟨by decide, by decide, by decide⟩, ?_⟩
  have h := ((applyFix_trimmed_guard "f.ahk" "a\n  b\nc" 2 "b" "q").2
    (by decide) (by decide)).2 (by decide)
  rw [h.1]
  decide

end AhkMcp
